import Mathlib

/-!
Verification of the `pycinante` utility library (file `pycinante/__init__.py`)
against its design specification.

The embedding models the Python functions over explicit data:
strings are Lean `String`s manipulated through their character lists,
the file system is an explicit state value (a set of existing directory
paths plus a map from pathnames to file contents), and dynamically typed
Python values are an inductive type.  Host-platform path semantics are
POSIX (the platform the library runs on): the path separator is `'/'`.
-/

namespace Pycinante

/-! ## Character-list string helpers -/

/-- Index of the last occurrence of `c` in `cs` (Python `str.rfind`,
`none` standing for Python's `-1`). -/
def rfindIdx : List Char → Char → Option Nat
  | [], _ => none
  | x :: xs, c =>
    match rfindIdx xs c with
    | some i => some (i + 1)
    | none => if x = c then some 0 else none

/-- Does the string begin with the POSIX path separator?
(Python `b.startswith('/')`.) -/
def startsWithSep (s : String) : Bool :=
  match s.data with
  | '/' :: _ => true
  | _ => false

/-- Does the string end with the POSIX path separator?
(Python `path.endswith('/')`.) -/
def endsWithSep (s : String) : Bool :=
  match s.data.reverse with
  | '/' :: _ => true
  | _ => false

/-- Strip trailing separators (Python `head.rstrip('/')`). -/
def rstripSep (cs : List Char) : List Char :=
  (cs.reverse.dropWhile (fun c => c = '/')).reverse

/-! ## POSIX path joining

Modelled from the spec: `os.path.join` of the standard path library
("path-segment joining uses the host platform's path-separator
convention"), POSIX rules: an absolute second operand replaces the
accumulated path; otherwise the operands are glued with `'/'` unless the
accumulated path is empty or already ends with `'/'`. -/

/-- One step of `os.path.join`: join the accumulated `path` with one
further operand `b`. -/
def joinOne (path b : String) : String :=
  if startsWithSep b then b
  else if path = "" ∨ endsWithSep path then path ++ b
  else path ++ "/" ++ b

/-- `os.path.join a ps` for a non-empty argument list `a :: ps`. -/
def osJoin (a : String) (ps : List String) : String :=
  ps.foldl joinOne a

/-! ## POSIX path splitting and recursive directory creation -/

/-- Modelled from the spec: `os.path.split` of the standard path library,
POSIX rules: split at the final separator; the head keeps no trailing
separators unless it consists only of separators. -/
def osSplit (p : String) : String × String :=
  let cs := p.data
  let i : Nat :=
    match rfindIdx cs '/' with
    | some k => k + 1
    | none => 0
  let head := cs.take i
  let tail := cs.drop i
  let head :=
    if head ≠ [] ∧ head.any (fun c => c ≠ '/') then rstripSep head else head
  (String.mk head, String.mk tail)

/-- The chain of directories that recursive directory creation
materializes for `p`: the parent chain of `p` (computed with
`osSplit`, root first), ending with `p` itself.  `fuel` bounds the
recursion; the parent returned by `osSplit` is strictly shorter than its
argument whenever the recursion continues, so `p.length` is enough. -/
def ancestorChain : Nat → String → List String
  | 0, p => [p]
  | fuel + 1, p =>
    let pr := osSplit p
    if pr.1 ≠ "" ∧ pr.2 ≠ "" then ancestorChain fuel pr.1 ++ [p] else [p]

/-- The file-system state: the set of existing directories and the
regular files (pathname paired with text content). -/
structure FS where
  dirs : List String
  files : List (String × String)
deriving DecidableEq, Repr

/-- Create one directory if absent (`mkdir` with `exist_ok`). -/
def addDir (d : String) (fs : FS) : FS :=
  if d ∈ fs.dirs then fs else { fs with dirs := d :: fs.dirs }

/-- Modelled from the spec: `os.makedirs(path, exist_ok=True)` —
"directory creation (recursive, idempotent — no error if target already
exists)": every missing directory on the parent chain of `p`, and `p`
itself, is created; directories already present are left alone. -/
def makedirs (p : String) (fs : FS) : FS :=
  (ancestorChain p.length p).foldl (fun a d => addDir d a) fs

/-! ## PathBuilder -/

/-- The `PathBuilder` class: a single string attribute `path`. -/
structure PathBuilder where
  path : String
deriving DecidableEq, Repr

/-- The path stored by `PathBuilder.__init__`:
`os.path.join(*(names or ('.',)))`. -/
def pbPath (names : List String) : String :=
  match names with
  | [] => osJoin "." []
  | n :: rest => osJoin n rest

/-- `PathBuilder.__init__(self, *names)`: join the segments (an empty
segment tuple defaults to `('.',)`), store the result in `path`, and
create the directory recursively (`os.makedirs(self.path, exist_ok=True)`).
The file-system state is threaded explicitly. -/
def pbInit (names : List String) (fs : FS) : PathBuilder × FS :=
  (⟨pbPath names⟩, makedirs (pbPath names) fs)

/-- `PathBuilder.__truediv__(self, pathname)`: construct a brand-new
`PathBuilder` on `os.path.join(self.path, pathname)`. -/
def pbDiv (b : PathBuilder) (pathname : String) (fs : FS) : PathBuilder × FS :=
  pbInit [joinOne b.path pathname] fs

/-- `PathBuilder.__add__(self, basename)`: return
`os.path.join(self.path, basename)`; the method performs no file-system
call, so the state passes through untouched. -/
def pbAdd (b : PathBuilder) (basename : String) (fs : FS) : String × FS :=
  (joinOne b.path basename, fs)

/-- The empty file system. -/
def FS.empty : FS := ⟨[], []⟩

/-! ## Lemmas about directory creation -/

lemma mem_addDir_self (d : String) (fs : FS) : d ∈ (addDir d fs).dirs := by
  unfold addDir
  split
  · assumption
  · exact List.mem_cons_self _ _

lemma mem_addDir_of_mem {x : String} (d : String) (fs : FS) (h : x ∈ fs.dirs) :
    x ∈ (addDir d fs).dirs := by
  unfold addDir
  split
  · exact h
  · exact List.mem_cons_of_mem _ h

lemma mem_foldl_addDir_of_mem {x : String} (l : List String) (fs : FS)
    (h : x ∈ fs.dirs) : x ∈ (l.foldl (fun a d => addDir d a) fs).dirs := by
  induction l generalizing fs with
  | nil => exact h
  | cons d l ih => exact ih _ (mem_addDir_of_mem d fs h)

lemma mem_foldl_addDir {x : String} (l : List String) (fs : FS) (h : x ∈ l) :
    x ∈ (l.foldl (fun a d => addDir d a) fs).dirs := by
  induction l generalizing fs with
  | nil => cases h
  | cons d l ih =>
    rcases List.mem_cons.mp h with rfl | hx
    · exact mem_foldl_addDir_of_mem l _ (mem_addDir_self x fs)
    · exact ih _ hx

lemma addDir_eq_of_mem {d : String} {fs : FS} (h : d ∈ fs.dirs) :
    addDir d fs = fs := if_pos h

lemma foldl_addDir_eq_of_mem {l : List String} {fs : FS}
    (h : ∀ d ∈ l, d ∈ fs.dirs) : l.foldl (fun a d => addDir d a) fs = fs := by
  induction l with
  | nil => rfl
  | cons d l ih =>
    have hd : addDir d fs = fs := addDir_eq_of_mem (h d (List.mem_cons_self _ _))
    simp only [List.foldl_cons, hd]
    exact ih fun x hx => h x (List.mem_cons_of_mem _ hx)

lemma self_mem_ancestorChain (fuel : Nat) (p : String) :
    p ∈ ancestorChain fuel p := by
  cases fuel with
  | zero => exact List.mem_singleton.mpr rfl
  | succ n =>
    show p ∈ (if (osSplit p).1 ≠ "" ∧ (osSplit p).2 ≠ "" then
        ancestorChain n (osSplit p).1 ++ [p] else [p])
    split
    · exact List.mem_append_right _ (List.mem_singleton.mpr rfl)
    · exact List.mem_singleton.mpr rfl

lemma mem_makedirs {d : String} (p : String) (fs : FS)
    (h : d ∈ ancestorChain p.length p) : d ∈ (makedirs p fs).dirs :=
  mem_foldl_addDir _ _ h

lemma self_mem_makedirs (p : String) (fs : FS) : p ∈ (makedirs p fs).dirs :=
  mem_makedirs p fs (self_mem_ancestorChain _ _)

lemma makedirs_idem (p : String) (fs : FS) :
    makedirs p (makedirs p fs) = makedirs p fs :=
  foldl_addDir_eq_of_mem fun _ hd => mem_makedirs p fs hd

/-! ## Claims about PathBuilder -/

/-- Claim C1: evaluating the chain `PathBuilder("/tmp", "pkg") / "sub" +
"file.txt"` returns exactly the string `"/tmp/pkg/sub/file.txt"`, and
afterwards the directories `/tmp/pkg` and `/tmp/pkg/sub` both exist on
disk while no file-system entry named `/tmp/pkg/sub/file.txt` has been
created (it is neither a directory nor a file). -/
theorem claim_C1_scenario :
    (let r1 := pbInit ["/tmp", "pkg"] FS.empty
     let r2 := pbDiv r1.1 "sub" r1.2
     let r3 := pbAdd r2.1 "file.txt" r2.2
     r3.1 = "/tmp/pkg/sub/file.txt" ∧
       "/tmp/pkg" ∈ r3.2.dirs ∧
       "/tmp/pkg/sub" ∈ r3.2.dirs ∧
       "/tmp/pkg/sub/file.txt" ∉ r3.2.dirs ∧
       r3.2.files = []) := by
  decide

/-- Claim C2: immediately after construction — by a direct constructor
call or by the `/` operation — the directory denoted by the builder's
`path` exists in the file-system state, every directory on its parent
chain exists as well (recursive creation), and constructing a second
`PathBuilder` on the same segments returns the same builder and leaves
the state unchanged (no error, directory still present). -/
theorem claim_C2_construction_invariant :
    ∀ (names : List String) (fs : FS),
      (pbInit names fs).1.path ∈ (pbInit names fs).2.dirs ∧
      (∀ d ∈ ancestorChain (pbInit names fs).1.path.length
          (pbInit names fs).1.path, d ∈ (pbInit names fs).2.dirs) ∧
      pbInit names (pbInit names fs).2 =
        ((pbInit names fs).1, (pbInit names fs).2) ∧
      (∀ (b : PathBuilder) (s : String) (fs' : FS),
        (pbDiv b s fs').1.path ∈ (pbDiv b s fs').2.dirs) := by
  intro names fs
  refine ⟨self_mem_makedirs _ _, fun d hd => mem_makedirs _ _ hd, ?_, ?_⟩
  · show (⟨pbPath names⟩, makedirs (pbPath names) (makedirs (pbPath names) fs))
        = ((⟨pbPath names⟩ : PathBuilder), makedirs (pbPath names) fs)
    rw [makedirs_idem]
  · intro b s fs'
    exact self_mem_makedirs _ _

/-- Witness for claim C2 at a concrete input. -/
theorem claim_C2_construction_invariant_witness :
    (pbInit ["/tmp", "pkg"] FS.empty).1.path ∈
      (pbInit ["/tmp", "pkg"] FS.empty).2.dirs ∧
    "/tmp" ∈ (pbInit ["/tmp", "pkg"] FS.empty).2.dirs ∧
    pbInit ["/tmp", "pkg"] (pbInit ["/tmp", "pkg"] FS.empty).2 =
      ((pbInit ["/tmp", "pkg"] FS.empty).1, (pbInit ["/tmp", "pkg"] FS.empty).2) :=
  ⟨(claim_C2_construction_invariant ["/tmp", "pkg"] FS.empty).1,
   (claim_C2_construction_invariant ["/tmp", "pkg"] FS.empty).2.1 "/tmp" (by decide),
   (claim_C2_construction_invariant ["/tmp", "pkg"] FS.empty).2.2.1⟩

/-- Claim C3: for every builder `b` and string `s`, the operation `b + s`
returns the plain string obtained by joining `b.path` with `s` under the
platform join convention — a string, not a `PathBuilder` (its result type
is `String`) — and it leaves the file-system state exactly as it was:
no directory creation, no file creation. -/
theorem claim_C3_add_is_pure_join :
    ∀ (b : PathBuilder) (s : String) (fs : FS),
      (pbAdd b s fs).1 = joinOne b.path s ∧ (pbAdd b s fs).2 = fs :=
  fun _ _ _ => ⟨rfl, rfl⟩

/-- Claim C4: for every builder `b` and segment `s`, the operation `b / s`
returns a new `PathBuilder` value whose `path` is `b.path` joined with
`s`; the receiver is untouched — the operation consumes `b` only by
value, `b.path` denotes the same string afterwards, and no operation of
the embedding mutates a `PathBuilder` (they are all pure functions of the
receiver). -/
theorem claim_C4_div_returns_new_builder :
    ∀ (b : PathBuilder) (s : String) (fs : FS),
      (pbDiv b s fs).1 = ⟨joinOne b.path s⟩ ∧
      (pbDiv b s fs).1.path = joinOne b.path s :=
  fun _ _ _ => ⟨rfl, rfl⟩

/-- Claim C10: when the segment `s` is an absolute path (it starts with
the separator), `b / s` yields a builder whose `path` equals `s` and
`b + s` returns exactly `s`: platform join semantics discard the
accumulated path before an absolute operand. -/
theorem claim_C10_absolute_segment_resets :
    ∀ (b : PathBuilder) (s : String) (fs : FS), startsWithSep s = true →
      (pbDiv b s fs).1.path = s ∧ (pbAdd b s fs).1 = s := by
  intro b s fs h
  have hj : joinOne b.path s = s := by
    unfold joinOne
    rw [if_pos h]
  exact ⟨hj, hj⟩

/-- Witness for claim C10 at a concrete input. -/
theorem claim_C10_absolute_segment_resets_witness :
    (pbDiv ⟨"/tmp/pkg"⟩ "/etc" FS.empty).1.path = "/etc" ∧
    (pbAdd ⟨"/tmp/pkg"⟩ "/etc" FS.empty).1 = "/etc" :=
  claim_C10_absolute_segment_resets ⟨"/tmp/pkg"⟩ "/etc" FS.empty (by decide)

/-! ## normalize_path -/

/-- Membership in the character class `[<>:"/\\|?*\x00-\x1F\x7F]` of the
regular expression compiled by `normalize_path`. -/
def isInvalidPathChar (c : Char) : Bool :=
  c = '<' || c = '>' || c = ':' || c = '"' || c = '/' || c = '\\' ||
    c = '|' || c = '?' || c = '*' || c.toNat ≤ 0x1F || c.toNat == 0x7F

/-- `normalize_path(pathname, rep)`:
`re.sub(re.compile(r'[<>:"/\\|?*\x00-\x1F\x7F]'), rep, pathname)`.
The pattern matches one character at a time, so the substitution replaces
each matched character independently by the string `rep`. -/
def normalize_path (pathname rep : String) : String :=
  String.mk (pathname.data.flatMap fun c =>
    if isInvalidPathChar c then rep.data else [c])

/-- Claim C9: with the default (empty) replacement string, the result of
`normalize_path` contains no reserved character `< > : " / \ | ? *` and
no ASCII control code `0x00`–`0x1F` or `0x7F`; every such character of
the input is replaced (dropped), and the function is a pure string
transform — witnessed also on the docstring example. -/
theorem claim_C9_normalize_removes_invalid :
    (∀ (s : String), ∀ c ∈ (normalize_path s "").data,
      isInvalidPathChar c = false) ∧
    normalize_path "A survey: Code is cheap, show me the code.pdf" "" =
      "A survey Code is cheap, show me the code.pdf" := by
  constructor
  · intro s c hc
    simp only [normalize_path, List.mem_flatMap] at hc
    obtain ⟨a, _, hc⟩ := hc
    by_cases hA : isInvalidPathChar a = true
    · simp [hA] at hc
    · simp [hA] at hc
      subst hc
      exact Bool.not_eq_true _ ▸ hA
  · decide

/-- Witness for claim C9 at a concrete input. -/
theorem claim_C9_normalize_removes_invalid_witness :
    isInvalidPathChar 'A' = false :=
  claim_C9_normalize_removes_invalid.1 "A:b" 'A' (by decide)

/-! ## Python values and listify -/

/-- The fragment of Python's dynamically typed values that `listify`
discriminates: lists, tuples, text strings, and two non-iterable
scalars. -/
inductive PyVal where
  | vList (xs : List PyVal)
  | vTuple (xs : List PyVal)
  | vStr (s : String)
  | vInt (n : Int)
  | vNone

/-- `isinstance(obj, list)`. -/
def PyVal.isList : PyVal → Bool
  | .vList _ => true
  | _ => false

/-- `isinstance(obj, str)`. -/
def PyVal.isStr : PyVal → Bool
  | .vStr _ => true
  | _ => false

/-- The elements produced by iterating the value, when it is iterable
(`isinstance(obj, Iterable)`): lists and tuples yield their elements,
a string yields its characters as one-character strings; integers and
`None` are not iterable. -/
def PyVal.iterElems : PyVal → Option (List PyVal)
  | .vList xs => some xs
  | .vTuple xs => some xs
  | .vStr s => some (s.data.map fun c => .vStr (String.mk [c]))
  | .vInt _ => none
  | .vNone => none

/-- `isinstance(obj, Iterable)`. -/
def PyVal.isIterable (v : PyVal) : Bool := v.iterElems.isSome

/-- `listify(obj)`: return `obj` itself when it is a list; otherwise
return `list(obj)` when it is a non-string iterable; otherwise `[obj]`. -/
def listify (obj : PyVal) : PyVal :=
  if obj.isList then obj
  else if ¬obj.isStr ∧ obj.isIterable then .vList (obj.iterElems.getD [])
  else .vList [obj]

/-! ## get_filename and get_ext

Modelled from the spec: `os.path.basename` and `os.path.splitext` of the
standard path library ("purely lexical splitting on the final path
separator and final `.` — no file-system access"), POSIX rules.
`splitext` splits at the final `.` only when it lies after the final
separator and the final component does not consist solely of leading
dots up to that point. -/

/-- The characters after the last separator (`os.path.basename`). -/
def bnChars (cs : List Char) : List Char :=
  match rfindIdx cs '/' with
  | some i => cs.drop (i + 1)
  | none => cs

/-- `os.path.basename(p)`, POSIX rules. -/
def basename (p : String) : String := String.mk (bnChars p.data)

/-- `os.path.splitext(p)` over character lists: `(root, ext)` with
`root ++ ext = p`. -/
def splitextChars (cs : List Char) : List Char × List Char :=
  match rfindIdx cs '.' with
  | none => (cs, [])
  | some d =>
    let fStart : Nat :=
      match rfindIdx cs '/' with
      | some i => i + 1
      | none => 0
    if fStart ≤ d ∧ ((cs.drop fStart).take (d - fStart)).any (fun c => c ≠ '.')
    then (cs.take d, cs.drop d)
    else (cs, [])

/-- `os.path.splitext(p)`, POSIX rules. -/
def splitext (p : String) : String × String :=
  ((splitextChars p.data).1.asString, (splitextChars p.data).2.asString)

/-- `get_filename(pathname)`:
`os.path.basename(os.path.splitext(pathname)[0])`. -/
def get_filename (pathname : String) : String := basename (splitext pathname).1

/-- `get_ext(pathname)`: `os.path.splitext(pathname)[1]`. -/
def get_ext (pathname : String) : String := (splitext pathname).2

lemma rfindIdx_lt_length {cs : List Char} {c : Char} {i : Nat}
    (h : rfindIdx cs c = some i) : i < cs.length := by
  induction cs generalizing i with
  | nil => cases h
  | cons x xs ih =>
    simp only [rfindIdx] at h
    cases hx : rfindIdx xs c with
    | some k =>
      rw [hx] at h
      injection h with h
      subst h
      exact Nat.succ_lt_succ (ih hx)
    | none =>
      rw [hx] at h
      by_cases hxc : x = c
      · rw [if_pos hxc] at h
        injection h with h
        subst h
        exact Nat.succ_pos _
      · rw [if_neg hxc] at h
        cases h

lemma rfindIdx_append_of_none {l2 : List Char} {c : Char}
    (l1 : List Char) (h : rfindIdx l2 c = none) :
    rfindIdx (l1 ++ l2) c = rfindIdx l1 c := by
  induction l1 with
  | nil => simpa using h
  | cons x l1 ih =>
    show (match rfindIdx (l1 ++ l2) c with
      | some i => some (i + 1)
      | none => if x = c then some 0 else none) =
      (match rfindIdx l1 c with
      | some i => some (i + 1)
      | none => if x = c then some 0 else none)
    rw [ih]

lemma rfindIdx_append_of_some {l2 : List Char} {c : Char} {j : Nat}
    (l1 : List Char) (h : rfindIdx l2 c = some j) :
    rfindIdx (l1 ++ l2) c = some (l1.length + j) := by
  induction l1 with
  | nil => simpa using h
  | cons x l1 ih =>
    show (match rfindIdx (l1 ++ l2) c with
      | some i => some (i + 1)
      | none => if x = c then some 0 else none) = some ((x :: l1).length + j)
    rw [ih]
    show some (l1.length + j + 1) = some (l1.length + 1 + j)
    congr 1
    omega

/-- The heart of claim C8 at the level of character lists. -/
lemma bnChars_splitext (cs : List Char) :
    bnChars (splitextChars cs).1 ++ (splitextChars cs).2 = bnChars cs := by
  unfold splitextChars
  cases hd : rfindIdx cs '.' with
  | none => simp
  | some d =>
    simp only
    split
    case isFalse => simp
    case isTrue hcond =>
      have hdlen : d < cs.length := rfindIdx_lt_length hd
      have hlen : (cs.take d).length = d := List.length_take_of_le (Nat.le_of_lt hdlen)
      cases hs : rfindIdx cs '/' with
      | none =>
        have hB : rfindIdx (cs.drop d) '/' = none := by
          cases hB : rfindIdx (cs.drop d) '/' with
          | none => rfl
          | some j =>
            have := rfindIdx_append_of_some (cs.take d) hB
            rw [List.take_append_drop] at this
            rw [hs] at this
            cases this
        have hA : rfindIdx (cs.take d) '/' = none := by
          have := rfindIdx_append_of_none (cs.take d) hB
          rw [List.take_append_drop, hs] at this
          exact this.symm
        simp only [bnChars, hA, hs]
        exact List.take_append_drop d cs
      | some i =>
        have hfs : i + 1 ≤ d := by
          rw [hs] at hcond
          exact hcond.1
        have hB : rfindIdx (cs.drop d) '/' = none := by
          cases hB : rfindIdx (cs.drop d) '/' with
          | none => rfl
          | some j =>
            have := rfindIdx_append_of_some (cs.take d) hB
            rw [List.take_append_drop, hs, hlen] at this
            cases this
            omega
        have hA : rfindIdx (cs.take d) '/' = some i := by
          have := rfindIdx_append_of_none (cs.take d) hB
          rw [List.take_append_drop, hs] at this
          exact this.symm
        simp only [bnChars, hA, hs]
        rw [List.drop_take, show cs.drop d = (cs.drop (i + 1)).drop (d - (i + 1)) by
          rw [List.drop_drop]
          congr 1
          omega]
        exact List.take_append_drop _ _

/-- Claim C8: for every pathname string `p`, `get_filename p ++ get_ext p`
reconstructs the base name of `p` (the final path component):
`get_filename` is the base name without its extension and `get_ext` the
extension with its leading dot, both purely lexical and total — with the
spec's concrete examples. -/
theorem claim_C8_filename_ext_reconstruct :
    (∀ (p : String), get_filename p ++ get_ext p = basename p) ∧
    get_filename "/a/b/c.py" = "c" ∧ get_ext "/a/b/c.py" = ".py" := by
  refine ⟨fun p => ?_, by decide, by decide⟩
  apply String.ext
  rw [String.data_append]
  show bnChars (splitextChars p.data).1 ++ (splitextChars p.data).2
      = bnChars p.data
  exact bnChars_splitext p.data

/-- Counterexample to claim C5 as stated: a tuple is an ordered sequence
container, yet `listify` does not return it unchanged — it rebuilds it as
a list. -/
theorem claim_C5_counterexample :
    listify (.vTuple [.vInt 0]) ≠ PyVal.vTuple [.vInt 0] := fun h =>
  PyVal.noConfusion
    (show PyVal.vList [.vInt 0] = PyVal.vTuple [.vInt 0] from h)

/-- Claim C5 (amended): only list values are returned identically: for
every list `x`, `listify(x)` is `x` itself.  A tuple, although an ordered
sequence container, falls into the iterable branch and is rebuilt as a
new list holding its elements. -/
theorem claim_C5_listify_list_identity :
    (∀ (xs : List PyVal), listify (.vList xs) = .vList xs) ∧
    (∀ (xs : List PyVal), listify (.vTuple xs) = .vList xs) := by
  constructor
  · intro xs
    rfl
  · intro xs
    rfl

/-- Claim C6: for every input `x`: when `x` is iterable and not a string,
`listify x` is the list of the elements produced by iterating `x`, in
order; when `x` is a string or not iterable, `listify x` is the
single-element list `[x]`. -/
theorem claim_C6_listify_cases :
    ∀ (x : PyVal),
      (x.isIterable = true → x.isStr = false →
        listify x = .vList (x.iterElems.getD [])) ∧
      (x.isStr = true ∨ x.isIterable = false → listify x = .vList [x]) := by
  intro x
  cases x <;> simp [listify, PyVal.isList, PyVal.isStr, PyVal.isIterable,
    PyVal.iterElems]

/-- Witness for claim C6 at concrete inputs: a tuple is iterated into a
list, a string is wrapped whole, a non-iterable integer is wrapped. -/
theorem claim_C6_listify_cases_witness :
    listify (.vTuple [.vInt 0, .vInt 1]) =
      .vList [.vInt 0, .vInt 1] ∧
    listify (.vStr "abc") = .vList [.vStr "abc"] ∧
    listify (.vInt 7) = .vList [.vInt 7] :=
  ⟨(claim_C6_listify_cases (.vTuple [.vInt 0, .vInt 1])).1 (by decide) (by decide),
   (claim_C6_listify_cases (.vStr "abc")).2 (Or.inl (by decide)),
   (claim_C6_listify_cases (.vInt 7)).2 (Or.inr (by decide))⟩

/-! ## JSON persistence

Modelled from the spec: the external JSON collaborator ("serializes
`data` as text to `pathname` … deserializes and returns the parsed
value"), which the one-line wrappers `save_json` and `load_json` call.
The value domain is the JSON data model with integer numbers (floating
point is outside the embedding); the serializer writes the standard
compact text form with `", "` and `": "` separators, escaping `"`,
`\` and control characters in strings, and the parser is a
recursive-descent JSON reader. -/

/-- A JSON value: null, boolean, integer number, string, array, object. -/
inductive JVal where
  | jnull
  | jbool (b : Bool)
  | jnum (n : Int)
  | jstr (s : String)
  | jarr (xs : List JVal)
  | jobj (kvs : List (String × JVal))

/-- The decimal digit character for `n < 10`. -/
def digitChar (n : Nat) : Char := Char.ofNat (48 + n)

/-- The lowercase hexadecimal digit character for `n < 16`. -/
def hexDigitChar (n : Nat) : Char :=
  if n < 10 then Char.ofNat (48 + n) else Char.ofNat (87 + n)

/-- The decimal digits of `n`, most significant first. -/
def natDigits (n : Nat) : List Char :=
  if _h : n < 10 then [digitChar n]
  else natDigits (n / 10) ++ [digitChar (n % 10)]
termination_by n
decreasing_by
  exact Nat.div_lt_self (by omega) (by omega)

/-- The decimal rendering of an integer (Python `repr(int)`). -/
def renderInt (n : Int) : List Char :=
  if n < 0 then '-' :: natDigits n.natAbs else natDigits n.natAbs

/-- JSON escape of one character inside a string literal. -/
def escChar (c : Char) : List Char :=
  if c = '"' then ['\\', '"']
  else if c = '\\' then ['\\', '\\']
  else if c.toNat < 32 then
    ['\\', 'u', '0', '0', hexDigitChar (c.toNat / 16), hexDigitChar (c.toNat % 16)]
  else [c]

/-- The body of a JSON string literal (without the quotes). -/
def renderStrBody (cs : List Char) : List Char := cs.flatMap escChar

/-- A JSON string literal with its quotes. -/
def renderStr (s : String) : List Char := '"' :: (renderStrBody s.data ++ ['"'])

mutual

/-- Serialize a JSON value to text (`json.dump` with its default
separators `", "` and `": "`). -/
def renderV : JVal → List Char
  | .jnull => ['n', 'u', 'l', 'l']
  | .jbool true => ['t', 'r', 'u', 'e']
  | .jbool false => ['f', 'a', 'l', 's', 'e']
  | .jnum n => renderInt n
  | .jstr s => renderStr s
  | .jarr [] => ['[', ']']
  | .jarr (x :: xs) => '[' :: (renderV x ++ renderList xs ++ [']'])
  | .jobj [] => ['{', '}']
  | .jobj (kv :: kvs) =>
    '{' :: (renderStr kv.1 ++ ':' :: ' ' :: renderV kv.2 ++ renderObjList kvs ++ ['}'])

/-- The remaining elements of a non-empty array, each preceded by the
element separator `", "`. -/
def renderList : List JVal → List Char
  | [] => []
  | x :: xs => ',' :: ' ' :: (renderV x ++ renderList xs)

/-- The remaining members of a non-empty object, each preceded by the
element separator `", "`. -/
def renderObjList : List (String × JVal) → List Char
  | [] => []
  | kv :: kvs =>
    ',' :: ' ' :: (renderStr kv.1 ++ ':' :: ' ' :: renderV kv.2 ++ renderObjList kvs)

end

/-- JSON whitespace. -/
def isWsChar (c : Char) : Bool := c = ' ' || c = '\t' || c = '\n' || c = '\r'

/-- Skip JSON whitespace. -/
def skipWs (cs : List Char) : List Char := cs.dropWhile isWsChar

/-- The value of a hexadecimal digit character. -/
def hexVal (c : Char) : Option Nat :=
  if '0' ≤ c ∧ c ≤ '9' then some (c.toNat - 48)
  else if 'a' ≤ c ∧ c ≤ 'f' then some (c.toNat - 87)
  else if 'A' ≤ c ∧ c ≤ 'F' then some (c.toNat - 55)
  else none

/-- Accumulate a run of decimal digits; stops at the first non-digit. -/
def parseDigitsAux (acc : Nat) : List Char → Nat × List Char
  | [] => (acc, [])
  | c :: r =>
    if c.isDigit then parseDigitsAux (acc * 10 + (c.toNat - 48)) r else (acc, c :: r)

/-- Read a non-empty run of decimal digits. -/
def parseDigits (cs : List Char) : Option (Nat × List Char) :=
  match cs with
  | [] => none
  | c :: r => if c.isDigit then some (parseDigitsAux 0 (c :: r)) else none

/-- Read the body of a JSON string literal after its opening quote,
returning the decoded characters and the input after the closing
quote. -/
def parseStrBody : List Char → Option (List Char × List Char)
  | [] => none
  | c :: r =>
    if c = '"' then some ([], r)
    else if c = '\\' then
      match r with
      | [] => none
      | e :: r2 =>
        if e = '"' then (parseStrBody r2).map fun p => ('"' :: p.1, p.2)
        else if e = '\\' then (parseStrBody r2).map fun p => ('\\' :: p.1, p.2)
        else if e = '/' then (parseStrBody r2).map fun p => ('/' :: p.1, p.2)
        else if e = 'b' then (parseStrBody r2).map fun p => (Char.ofNat 8 :: p.1, p.2)
        else if e = 'f' then (parseStrBody r2).map fun p => (Char.ofNat 12 :: p.1, p.2)
        else if e = 'n' then (parseStrBody r2).map fun p => ('\n' :: p.1, p.2)
        else if e = 'r' then (parseStrBody r2).map fun p => (Char.ofNat 13 :: p.1, p.2)
        else if e = 't' then (parseStrBody r2).map fun p => ('\t' :: p.1, p.2)
        else if e = 'u' then
          match r2 with
          | h1 :: h2 :: h3 :: h4 :: r3 =>
            match hexVal h1, hexVal h2, hexVal h3, hexVal h4 with
            | some a, some b, some c3, some d =>
              (parseStrBody r3).map fun p =>
                (Char.ofNat (((a * 16 + b) * 16 + c3) * 16 + d) :: p.1, p.2)
            | _, _, _, _ => none
          | _ => none
        else none
    else (parseStrBody r).map fun p => (c :: p.1, p.2)
termination_by cs => cs.length
decreasing_by all_goals simp <;> omega

mutual

/-- Recursive-descent JSON value reader.  `fuel` bounds the nesting
depth; each step into a sub-value consumes one unit. -/
def parseVal : Nat → List Char → Option (JVal × List Char)
  | 0, _ => none
  | fuel + 1, cs =>
    match skipWs cs with
    | [] => none
    | c :: r =>
      if c = 'n' then
        match r with
        | 'u' :: 'l' :: 'l' :: r2 => some (.jnull, r2)
        | _ => none
      else if c = 't' then
        match r with
        | 'r' :: 'u' :: 'e' :: r2 => some (.jbool true, r2)
        | _ => none
      else if c = 'f' then
        match r with
        | 'a' :: 'l' :: 's' :: 'e' :: r2 => some (.jbool false, r2)
        | _ => none
      else if c = '"' then
        match parseStrBody r with
        | some (s, r2) => some (.jstr (String.mk s), r2)
        | none => none
      else if c = '[' then
        match skipWs r with
        | [] => none
        | c2 :: r2 =>
          if c2 = ']' then some (.jarr [], r2)
          else
            match parseVal fuel (c2 :: r2) with
            | some (v, r3) =>
              match parseArrTail fuel r3 with
              | some (vs, r4) => some (.jarr (v :: vs), r4)
              | none => none
            | none => none
      else if c = '{' then
        match skipWs r with
        | [] => none
        | c2 :: r2 =>
          if c2 = '}' then some (.jobj [], r2)
          else if c2 = '"' then
            match parseStrBody r2 with
            | some (k, r3) =>
              match skipWs r3 with
              | ':' :: r4 =>
                match parseVal fuel r4 with
                | some (v, r5) =>
                  match parseObjTail fuel r5 with
                  | some (kvs, r6) => some (.jobj ((String.mk k, v) :: kvs), r6)
                  | none => none
                | none => none
              | _ => none
            | none => none
          else none
      else if c = '-' then
        match parseDigits r with
        | some (m, r2) => some (.jnum (-(m : Int)), r2)
        | none => none
      else if c.isDigit then
        match parseDigits (c :: r) with
        | some (m, r2) => some (.jnum (m : Int), r2)
        | none => none
      else none

/-- After one array element: read `, element`* and the closing `]`. -/
def parseArrTail : Nat → List Char → Option (List JVal × List Char)
  | 0, _ => none
  | fuel + 1, cs =>
    match skipWs cs with
    | [] => none
    | c :: r =>
      if c = ']' then some ([], r)
      else if c = ',' then
        match parseVal fuel r with
        | some (v, r2) =>
          match parseArrTail fuel r2 with
          | some (vs, r3) => some (v :: vs, r3)
          | none => none
        | none => none
      else none

/-- After one object member: read `, "key": value`* and the closing
`}`. -/
def parseObjTail : Nat → List Char → Option (List (String × JVal) × List Char)
  | 0, _ => none
  | fuel + 1, cs =>
    match skipWs cs with
    | [] => none
    | c :: r =>
      if c = '}' then some ([], r)
      else if c = ',' then
        match skipWs r with
        | [] => none
        | c2 :: r2 =>
          if c2 = '"' then
            match parseStrBody r2 with
            | some (k, r3) =>
              match skipWs r3 with
              | ':' :: r4 =>
                match parseVal fuel r4 with
                | some (v, r5) =>
                  match parseObjTail fuel r5 with
                  | some (kvs, r6) => some ((String.mk k, v) :: kvs, r6)
                  | none => none
                | none => none
              | _ => none
            | none => none
          else none
      else none

end

/-! ### Digit lemmas -/

lemma digitChar_isDigit {m : Nat} (h : m < 10) : (digitChar m).isDigit = true := by
  interval_cases m <;> decide

lemma digitChar_toNat {m : Nat} (h : m < 10) : (digitChar m).toNat = 48 + m := by
  interval_cases m <;> decide

lemma natDigits_eq_cons (n : Nat) :
    ∃ d t, natDigits n = digitChar d :: t ∧ d < 10 := by
  induction n using Nat.strong_induction_on with
  | _ n ih =>
    rw [natDigits]
    split
    case isTrue h => exact ⟨n, [], rfl, h⟩
    case isFalse h =>
      obtain ⟨d, t, hd, hlt⟩ :=
        ih (n / 10) (Nat.div_lt_self (by omega) (by omega))
      exact ⟨d, t ++ [digitChar (n % 10)], by rw [hd, List.cons_append], hlt⟩

lemma natDigits_mem_isDigit (n : Nat) :
    ∀ c ∈ natDigits n, c.isDigit = true := by
  induction n using Nat.strong_induction_on with
  | _ n ih =>
    rw [natDigits]
    split
    case isTrue h =>
      intro c hc
      rw [List.mem_singleton] at hc
      subst hc
      exact digitChar_isDigit h
    case isFalse h =>
      intro c hc
      rw [List.mem_append] at hc
      rcases hc with hc | hc
      · exact ih (n / 10) (Nat.div_lt_self (by omega) (by omega)) c hc
      · rw [List.mem_singleton] at hc
        subst hc
        exact digitChar_isDigit (Nat.mod_lt _ (by omega))

lemma natDigits_foldl (n : Nat) : ∀ acc : Nat,
    (natDigits n).foldl (fun a c => a * 10 + (c.toNat - 48)) acc
      = acc * 10 ^ (natDigits n).length + n := by
  induction n using Nat.strong_induction_on with
  | _ n ih =>
    intro acc
    rw [natDigits]
    split
    case isTrue h =>
      simp only [List.foldl_cons, List.foldl_nil, List.length_cons,
        List.length_nil, pow_one, digitChar_toNat h]
      omega
    case isFalse h =>
      rw [List.foldl_append, List.length_append,
        ih (n / 10) (Nat.div_lt_self (by omega) (by omega)) acc]
      simp only [List.foldl_cons, List.foldl_nil, List.length_cons,
        List.length_nil, digitChar_toNat (Nat.mod_lt n (by omega)),
        Nat.zero_add, pow_succ]
      rw [← mul_assoc]
      omega

/-- The input just ahead is not a decimal digit (so a digit run cannot
leak into it). -/
def nonDigitStart : List Char → Prop
  | [] => True
  | c :: _ => c.isDigit = false

lemma parseDigitsAux_spec :
    ∀ (ds : List Char), (∀ c ∈ ds, c.isDigit = true) →
      ∀ (acc : Nat) (rest : List Char), nonDigitStart rest →
        parseDigitsAux acc (ds ++ rest)
          = (ds.foldl (fun a c => a * 10 + (c.toNat - 48)) acc, rest) := by
  intro ds
  induction ds with
  | nil =>
    intro _ acc rest hrest
    cases rest with
    | nil => rfl
    | cons c r =>
      have hc : c.isDigit = false := hrest
      simp [parseDigitsAux, hc]
  | cons d ds ih =>
    intro hds acc rest hrest
    have hd : d.isDigit = true := hds d (List.mem_cons_self _ _)
    simp only [List.cons_append, parseDigitsAux, hd, if_true, List.foldl_cons]
    exact ih (fun c hc => hds c (List.mem_cons_of_mem _ hc)) _ rest hrest

lemma parseDigits_natDigits (m : Nat) (rest : List Char)
    (hrest : nonDigitStart rest) :
    parseDigits (natDigits m ++ rest) = some (m, rest) := by
  obtain ⟨d, t, hd, hlt⟩ := natDigits_eq_cons m
  have hcons : natDigits m ++ rest = digitChar d :: (t ++ rest) := by
    rw [hd, List.cons_append]
  rw [hcons]
  simp only [parseDigits, digitChar_isDigit hlt, if_true]
  rw [← hcons, parseDigitsAux_spec (natDigits m) (natDigits_mem_isDigit m) 0 rest hrest,
    natDigits_foldl]
  simp

/-! ### String-literal lemmas -/

lemma hexVal_hexDigitChar {m : Nat} (h : m < 16) :
    hexVal (hexDigitChar m) = some m := by
  interval_cases m <;> decide

lemma parseStrBody_renderStrBody :
    ∀ (s rest : List Char),
      parseStrBody (renderStrBody s ++ '"' :: rest) = some (s, rest) := by
  intro s
  induction s with
  | nil =>
    intro rest
    simp [renderStrBody, parseStrBody.eq_def]
  | cons c s ih =>
    intro rest
    have hcons : renderStrBody (c :: s) ++ '"' :: rest
        = escChar c ++ (renderStrBody s ++ '"' :: rest) := by
      simp [renderStrBody, List.flatMap_cons, List.append_assoc]
    rw [hcons]
    by_cases h1 : c = '"'
    · subst h1
      have he : escChar '"' = ['\\', '"'] := by simp [escChar]
      rw [he, List.cons_append, List.cons_append, List.nil_append,
        parseStrBody.eq_def]
      simp [ih rest]
    · by_cases h2 : c = '\\'
      · subst h2
        have he : escChar '\\' = ['\\', '\\'] := by simp [escChar]
        rw [he, List.cons_append, List.cons_append, List.nil_append,
          parseStrBody.eq_def]
        simp [ih rest]
      · by_cases h3 : c.toNat < 32
        · have hhi : c.toNat / 16 < 16 := by omega
          have hlo : c.toNat % 16 < 16 := by omega
          have h0 : hexVal '0' = some 0 := by decide
          have he : escChar c = ['\\', 'u', '0', '0',
              hexDigitChar (c.toNat / 16), hexDigitChar (c.toNat % 16)] := by
            simp [escChar, h1, h2, h3]
          have hc : Char.ofNat
              (((0 * 16 + 0) * 16 + c.toNat / 16) * 16 + c.toNat % 16) = c := by
            rw [show ((0 * 16 + 0) * 16 + c.toNat / 16) * 16 + c.toNat % 16
              = c.toNat by omega, Char.ofNat_toNat]
          rw [he]
          simp only [List.cons_append, List.nil_append]
          rw [parseStrBody.eq_def]
          simp only [reduceIte, h0, hexVal_hexDigitChar hhi,
            hexVal_hexDigitChar hlo]
          rw [hc, ih rest]
          rfl
        · have he : escChar c = [c] := by simp [escChar, h1, h2, h3]
          rw [he, List.cons_append, List.nil_append, parseStrBody.eq_def]
          simp [h1, h2, ih rest]

/-! ### Size of a JSON value (fuel accounting for the parser) -/

mutual

/-- Number of parser steps needed for one value. -/
def sizeV : JVal → Nat
  | .jnull => 1
  | .jbool _ => 1
  | .jnum _ => 1
  | .jstr _ => 1
  | .jarr xs => sizeL xs + 1
  | .jobj kvs => sizeO kvs + 1

/-- Parser steps for the elements of an array. -/
def sizeL : List JVal → Nat
  | [] => 0
  | x :: xs => sizeV x + sizeL xs + 1

/-- Parser steps for the members of an object. -/
def sizeO : List (String × JVal) → Nat
  | [] => 0
  | kv :: kvs => sizeV kv.2 + sizeO kvs + 1

end

lemma sizeV_pos (v : JVal) : 1 ≤ sizeV v := by
  cases v <;> simp only [sizeV] <;> omega

/-! ### Heads of rendered output -/

lemma digitChar_facts {d : Nat} (h : d < 10) :
    isWsChar (digitChar d) = false ∧ (digitChar d).isDigit = true ∧
    digitChar d ≠ 'n' ∧ digitChar d ≠ 't' ∧ digitChar d ≠ 'f' ∧
    digitChar d ≠ '"' ∧ digitChar d ≠ '[' ∧ digitChar d ≠ '{' ∧
    digitChar d ≠ '-' ∧ digitChar d ≠ ']' ∧ digitChar d ≠ '}' := by
  interval_cases d <;> decide

lemma renderV_cons (v : JVal) :
    ∃ c t, renderV v = c :: t ∧ isWsChar c = false ∧ c ≠ ']' ∧ c ≠ '}' := by
  cases v with
  | jnull => exact ⟨'n', ['u', 'l', 'l'], by simp [renderV], by decide, by decide, by decide⟩
  | jbool b =>
    cases b with
    | true => exact ⟨'t', ['r', 'u', 'e'], by simp [renderV], by decide, by decide, by decide⟩
    | false => exact ⟨'f', ['a', 'l', 's', 'e'], by simp [renderV], by decide, by decide, by decide⟩
  | jnum n =>
    by_cases hn : n < 0
    · exact ⟨'-', natDigits n.natAbs, by simp [renderV, renderInt, hn],
        by decide, by decide, by decide⟩
    · obtain ⟨d, t, hd, hlt⟩ := natDigits_eq_cons n.natAbs
      obtain ⟨hws, _, _, _, _, _, _, _, _, hr, hb⟩ := digitChar_facts hlt
      exact ⟨digitChar d, t, by simp [renderV, renderInt, hn, hd], hws, hr, hb⟩
  | jstr s =>
    exact ⟨'"', renderStrBody s.data ++ ['"'], by simp [renderV, renderStr],
      by decide, by decide, by decide⟩
  | jarr xs =>
    cases xs with
    | nil => exact ⟨'[', [']'], by simp [renderV], by decide, by decide, by decide⟩
    | cons x xs =>
      exact ⟨'[', renderV x ++ renderList xs ++ [']'], by simp [renderV],
        by decide, by decide, by decide⟩
  | jobj kvs =>
    cases kvs with
    | nil => exact ⟨'{', ['}'], by simp [renderV], by decide, by decide, by decide⟩
    | cons kv kvs =>
      exact ⟨'{', renderStr kv.1 ++ ':' :: ' ' :: renderV kv.2 ++
        renderObjList kvs ++ ['}'], by simp [renderV], by decide, by decide, by decide⟩

lemma skipWs_cons_not {c : Char} {l : List Char} (h : isWsChar c = false) :
    skipWs (c :: l) = c :: l := by
  simp [skipWs, List.dropWhile_cons, h]

lemma skipWs_cons_ws {c : Char} {l : List Char} (h : isWsChar c = true) :
    skipWs (c :: l) = skipWs l := by
  simp [skipWs, List.dropWhile_cons, h]

lemma skipWs_renderV (v : JVal) (rest : List Char) :
    skipWs (renderV v ++ rest) = renderV v ++ rest := by
  obtain ⟨c, t, hv, hws, _, _⟩ := renderV_cons v
  rw [hv, List.cons_append, skipWs_cons_not hws]

lemma parseVal_skip_ws (fuel : Nat) {c : Char} (h : isWsChar c = true)
    (cs : List Char) : parseVal (fuel + 1) (c :: cs) = parseVal (fuel + 1) cs := by
  simp only [parseVal]
  rw [skipWs_cons_ws h]

lemma nonDigitStart_renderList (xs : List JVal) (rest : List Char) :
    nonDigitStart (renderList xs ++ ']' :: rest) := by
  cases xs with
  | nil =>
    rw [show renderList [] = [] from by simp [renderList], List.nil_append]
    show (']').isDigit = false
    decide
  | cons x xs =>
    rw [show renderList (x :: xs) = ',' :: ' ' :: (renderV x ++ renderList xs)
      from by simp [renderList], List.cons_append]
    show (',').isDigit = false
    decide

lemma nonDigitStart_renderObjList (kvs : List (String × JVal)) (rest : List Char) :
    nonDigitStart (renderObjList kvs ++ '}' :: rest) := by
  cases kvs with
  | nil =>
    rw [show renderObjList [] = [] from by simp [renderObjList], List.nil_append]
    show ('}').isDigit = false
    decide
  | cons kv kvs =>
    rw [show renderObjList (kv :: kvs) = ',' :: ' ' :: (renderStr kv.1 ++
      ':' :: ' ' :: renderV kv.2 ++ renderObjList kvs) from by simp [renderObjList],
      List.cons_append]
    show (',').isDigit = false
    decide

/-! ### The parser reads back exactly what the serializer wrote -/

/-- The recursive-descent reader, run on the rendered text of a value
followed by any suffix that does not begin with a digit, returns exactly
that value and the untouched suffix (and correspondingly for array and
object tails). -/
theorem parseVal_renderV (fuel : Nat) :
    (∀ (v : JVal) (rest : List Char), sizeV v ≤ fuel → nonDigitStart rest →
      parseVal fuel (renderV v ++ rest) = some (v, rest)) ∧
    (∀ (xs : List JVal) (rest : List Char), sizeL xs < fuel →
      parseArrTail fuel (renderList xs ++ ']' :: rest) = some (xs, rest)) ∧
    (∀ (kvs : List (String × JVal)) (rest : List Char), sizeO kvs < fuel →
      parseObjTail fuel (renderObjList kvs ++ '}' :: rest) = some (kvs, rest)) := by
  induction fuel with
  | zero =>
    refine ⟨fun v rest hs _ => absurd hs ?_, fun xs rest hs => absurd hs (by omega),
      fun kvs rest hs => absurd hs (by omega)⟩
    have := sizeV_pos v
    omega
  | succ fuel ih =>
    obtain ⟨ihV, ihA, ihO⟩ := ih
    refine ⟨?_, ?_, ?_⟩
    · intro v rest hs hrest
      cases v with
      | jnull =>
        rw [show renderV .jnull = ['n', 'u', 'l', 'l'] from by simp [renderV]]
        simp [parseVal, skipWs, isWsChar]
      | jbool b =>
        cases b with
        | true =>
          rw [show renderV (.jbool true) = ['t', 'r', 'u', 'e'] from by simp [renderV]]
          simp [parseVal, skipWs, isWsChar]
        | false =>
          rw [show renderV (.jbool false) = ['f', 'a', 'l', 's', 'e'] from by simp [renderV]]
          simp [parseVal, skipWs, isWsChar]
      | jnum n =>
        rw [show renderV (.jnum n) = renderInt n from by simp [renderV]]
        by_cases hn : n < 0
        · rw [show renderInt n = '-' :: natDigits n.natAbs from by
            simp [renderInt, hn], List.cons_append]
          simp only [parseVal]
          rw [skipWs_cons_not (by decide : isWsChar '-' = false)]
          simp [parseDigits_natDigits n.natAbs rest hrest, abs_of_neg hn]
        · obtain ⟨d, t, hd, hlt⟩ := natDigits_eq_cons n.natAbs
          obtain ⟨hws, hdig, hn1, hn2, hn3, hn4, hn5, hn6, hn7, _, _⟩ :=
            digitChar_facts hlt
          rw [show renderInt n = natDigits n.natAbs from by simp [renderInt, hn],
            hd, List.cons_append]
          simp only [parseVal]
          rw [skipWs_cons_not hws]
          have hfold : digitChar d :: (t ++ rest) = natDigits n.natAbs ++ rest := by
            rw [hd, List.cons_append]
          have hpd : parseDigits (digitChar d :: (t ++ rest)) = some (n.natAbs, rest) := by
            rw [hfold, parseDigits_natDigits n.natAbs rest hrest]
          have hval : ((n.natAbs : Int)) = n := Int.natAbs_of_nonneg (by omega)
          simp [hn1, hn2, hn3, hn4, hn5, hn6, hn7, hdig, hpd, hval]
      | jstr s =>
        rw [show renderV (.jstr s) = '"' :: (renderStrBody s.data ++ ['"']) from by
          simp [renderV, renderStr], List.cons_append]
        rw [show (renderStrBody s.data ++ ['"']) ++ rest
            = renderStrBody s.data ++ '"' :: rest from by
          simp [List.append_assoc]]
        simp only [parseVal]
        rw [skipWs_cons_not (by decide : isWsChar '"' = false)]
        simp [parseStrBody_renderStrBody s.data rest]
      | jarr xs =>
        cases xs with
        | nil =>
          rw [show renderV (.jarr []) = ['[', ']'] from by simp [renderV]]
          simp [parseVal, skipWs, isWsChar]
        | cons x xs =>
          obtain ⟨c0, t0, hx, hws0, hr0, hb0⟩ := renderV_cons x
          have hpos := sizeV_pos x
          have hsx : sizeV x ≤ fuel := by
            simp only [sizeV, sizeL] at hs
            omega
          have hsxs : sizeL xs < fuel := by
            simp only [sizeV, sizeL] at hs
            omega
          rw [show renderV (.jarr (x :: xs)) = '[' ::
              (renderV x ++ renderList xs ++ [']']) from by simp [renderV],
            List.cons_append]
          rw [show (renderV x ++ renderList xs ++ [']']) ++ rest
              = renderV x ++ (renderList xs ++ ']' :: rest) from by
            simp [List.append_assoc]]
          simp only [parseVal]
          rw [skipWs_cons_not (by decide : isWsChar '[' = false)]
          have hskip : skipWs (renderV x ++ (renderList xs ++ ']' :: rest))
              = c0 :: (t0 ++ (renderList xs ++ ']' :: rest)) := by
            rw [skipWs_renderV, hx, List.cons_append]
          have hV : parseVal fuel (c0 :: (t0 ++ (renderList xs ++ ']' :: rest)))
              = some (x, renderList xs ++ ']' :: rest) := by
            rw [← List.cons_append, ← hx]
            exact ihV x _ hsx (nonDigitStart_renderList xs rest)
          have hT : parseArrTail fuel (renderList xs ++ ']' :: rest)
              = some (xs, rest) := ihA xs rest hsxs
          simp [hskip, hV, hT, hr0]
      | jobj kvs =>
        cases kvs with
        | nil =>
          rw [show renderV (.jobj []) = ['{', '}'] from by simp [renderV]]
          simp [parseVal, skipWs, isWsChar]
        | cons kv kvs =>
          have hpos := sizeV_pos kv.2
          have hsv : sizeV kv.2 ≤ fuel := by
            simp only [sizeV, sizeO] at hs
            omega
          have hskvs : sizeO kvs < fuel := by
            simp only [sizeV, sizeO] at hs
            omega
          rw [show renderV (.jobj (kv :: kvs)) = '{' :: (renderStr kv.1 ++
              ':' :: ' ' :: renderV kv.2 ++ renderObjList kvs ++ ['}']) from by
            simp [renderV], List.cons_append]
          rw [show (renderStr kv.1 ++ ':' :: ' ' :: renderV kv.2 ++
              renderObjList kvs ++ ['}']) ++ rest
              = '"' :: (renderStrBody kv.1.data ++ '"' :: (':' :: ' ' ::
                (renderV kv.2 ++ (renderObjList kvs ++ '}' :: rest)))) from by
            simp [renderStr, List.append_assoc]]
          simp only [parseVal]
          rw [skipWs_cons_not (by decide : isWsChar '{' = false)]
          have hsk1 : skipWs ('"' :: (renderStrBody kv.1.data ++ '"' ::
              (':' :: ' ' :: (renderV kv.2 ++ (renderObjList kvs ++ '}' :: rest)))))
              = '"' :: (renderStrBody kv.1.data ++ '"' :: (':' :: ' ' ::
                (renderV kv.2 ++ (renderObjList kvs ++ '}' :: rest)))) :=
            skipWs_cons_not (by decide)
          have hstr := parseStrBody_renderStrBody kv.1.data
            (':' :: ' ' :: (renderV kv.2 ++ (renderObjList kvs ++ '}' :: rest)))
          have hsk2 : skipWs (':' :: ' ' :: (renderV kv.2 ++
              (renderObjList kvs ++ '}' :: rest)))
              = ':' :: ' ' :: (renderV kv.2 ++ (renderObjList kvs ++ '}' :: rest)) :=
            skipWs_cons_not (by decide)
          obtain ⟨g, rfl⟩ : ∃ g, fuel = g + 1 := ⟨fuel - 1, by omega⟩
          have hV : parseVal (g + 1) (' ' :: (renderV kv.2 ++
              (renderObjList kvs ++ '}' :: rest)))
              = some (kv.2, renderObjList kvs ++ '}' :: rest) := by
            rw [parseVal_skip_ws g (by decide)]
            exact ihV kv.2 _ hsv (nonDigitStart_renderObjList kvs rest)
          have hT : parseObjTail (g + 1) (renderObjList kvs ++ '}' :: rest)
              = some (kvs, rest) := ihO kvs rest hskvs
          simp [hsk1, hstr, hsk2, hV, hT]
    · intro xs rest hs
      cases xs with
      | nil =>
        rw [show renderList [] = [] from by simp [renderList], List.nil_append]
        simp [parseArrTail, skipWs, isWsChar]
      | cons x xs =>
        have hpos := sizeV_pos x
        rw [show renderList (x :: xs) ++ ']' :: rest
            = ',' :: ' ' :: (renderV x ++ (renderList xs ++ ']' :: rest)) from by
          simp [renderList, List.append_assoc]]
        simp only [parseArrTail]
        rw [skipWs_cons_not (by decide : isWsChar ',' = false)]
        obtain ⟨g, rfl⟩ : ∃ g, fuel = g + 1 :=
          ⟨fuel - 1, by simp only [sizeL] at hs; omega⟩
        have hsx : sizeV x ≤ g + 1 := by simp only [sizeL] at hs; omega
        have hsxs : sizeL xs < g + 1 := by simp only [sizeL] at hs; omega
        have hV : parseVal (g + 1)
            (' ' :: (renderV x ++ (renderList xs ++ ']' :: rest)))
            = some (x, renderList xs ++ ']' :: rest) := by
          rw [parseVal_skip_ws g (by decide)]
          exact ihV x _ hsx (nonDigitStart_renderList xs rest)
        have hT : parseArrTail (g + 1) (renderList xs ++ ']' :: rest)
            = some (xs, rest) := ihA xs rest hsxs
        simp [hV, hT]
    · intro kvs rest hs
      cases kvs with
      | nil =>
        rw [show renderObjList [] = [] from by simp [renderObjList], List.nil_append]
        simp [parseObjTail, skipWs, isWsChar]
      | cons kv kvs =>
        have hpos := sizeV_pos kv.2
        rw [show renderObjList (kv :: kvs) ++ '}' :: rest
            = ',' :: ' ' :: ('"' :: (renderStrBody kv.1.data ++ '"' ::
              (':' :: ' ' :: (renderV kv.2 ++ (renderObjList kvs ++ '}' :: rest)))))
            from by simp [renderObjList, renderStr, List.append_assoc]]
        simp only [parseObjTail]
        rw [skipWs_cons_not (by decide : isWsChar ',' = false)]
        obtain ⟨g, rfl⟩ : ∃ g, fuel = g + 1 :=
          ⟨fuel - 1, by simp only [sizeO] at hs; omega⟩
        have hsv : sizeV kv.2 ≤ g + 1 := by simp only [sizeO] at hs; omega
        have hskvs : sizeO kvs < g + 1 := by simp only [sizeO] at hs; omega
        have hsk0 : skipWs (' ' :: ('"' :: (renderStrBody kv.1.data ++ '"' ::
            (':' :: ' ' :: (renderV kv.2 ++ (renderObjList kvs ++ '}' :: rest))))))
            = '"' :: (renderStrBody kv.1.data ++ '"' :: (':' :: ' ' ::
              (renderV kv.2 ++ (renderObjList kvs ++ '}' :: rest)))) := by
          rw [skipWs_cons_ws (by decide), skipWs_cons_not (by decide)]
        have hstr := parseStrBody_renderStrBody kv.1.data
          (':' :: ' ' :: (renderV kv.2 ++ (renderObjList kvs ++ '}' :: rest)))
        have hsk2 : skipWs (':' :: ' ' :: (renderV kv.2 ++
            (renderObjList kvs ++ '}' :: rest)))
            = ':' :: ' ' :: (renderV kv.2 ++ (renderObjList kvs ++ '}' :: rest)) :=
          skipWs_cons_not (by decide)
        have hV : parseVal (g + 1) (' ' :: (renderV kv.2 ++
            (renderObjList kvs ++ '}' :: rest)))
            = some (kv.2, renderObjList kvs ++ '}' :: rest) := by
          rw [parseVal_skip_ws g (by decide)]
          exact ihV kv.2 _ hsv (nonDigitStart_renderObjList kvs rest)
        have hT : parseObjTail (g + 1) (renderObjList kvs ++ '}' :: rest)
            = some (kvs, rest) := ihO kvs rest hskvs
        simp [hsk0, hstr, hsk2, hV, hT]

mutual

/-- A value's parser-step requirement never exceeds the length of its
rendered text. -/
theorem sizeV_le_len (v : JVal) : sizeV v ≤ (renderV v).length := by
  cases v with
  | jnull => simp [sizeV, renderV]
  | jbool b => cases b <;> simp [sizeV, renderV]
  | jnum n =>
    obtain ⟨c, t, hv, _, _, _⟩ := renderV_cons (.jnum n)
    simp [sizeV, hv]
  | jstr s =>
    obtain ⟨c, t, hv, _, _, _⟩ := renderV_cons (.jstr s)
    simp [sizeV, hv]
  | jarr xs =>
    cases xs with
    | nil => simp [sizeV, sizeL, renderV]
    | cons x xs =>
      have h1 := sizeV_le_len x
      have h2 := sizeL_le_len xs
      simp only [sizeV, sizeL, renderV, List.length_cons, List.length_append,
        List.length_singleton]
      omega
  | jobj kvs =>
    cases kvs with
    | nil => simp [sizeV, sizeO, renderV]
    | cons kv kvs =>
      have h1 := sizeV_le_len kv.2
      have h2 := sizeO_le_len kvs
      simp only [sizeV, sizeO, renderV, List.length_cons, List.length_append,
        List.length_singleton]
      omega

/-- Step requirement of array elements against their rendered length. -/
theorem sizeL_le_len (xs : List JVal) : sizeL xs ≤ (renderList xs).length := by
  cases xs with
  | nil => simp [sizeL, renderList]
  | cons x xs =>
    have h1 := sizeV_le_len x
    have h2 := sizeL_le_len xs
    simp only [sizeL, renderList, List.length_cons, List.length_append]
    omega

/-- Step requirement of object members against their rendered length. -/
theorem sizeO_le_len (kvs : List (String × JVal)) :
    sizeO kvs ≤ (renderObjList kvs).length := by
  cases kvs with
  | nil => simp [sizeO, renderObjList]
  | cons kv kvs =>
    have h1 := sizeV_le_len kv.2
    have h2 := sizeO_le_len kvs
    simp only [sizeO, renderObjList, List.length_cons, List.length_append]
    omega

end

/-- Read a file's text content, when the file exists. -/
def lookupFile (p : String) (fs : FS) : Option String :=
  (fs.files.find? fun kv => kv.1 = p).map fun kv => kv.2

/-- `save_json(data, pathname)`: open `pathname` for writing (truncating
any previous content) and serialize `data` into it. -/
def save_json (data : JVal) (pathname : String) (fs : FS) : FS :=
  { fs with
    files := (pathname, (renderV data).asString) ::
      fs.files.filter fun kv => kv.1 ≠ pathname }

/-- `load_json(pathname)`: open `pathname` for reading and parse its
whole content as one JSON document (`none` when the file is missing or
its content is not a complete JSON value). -/
def load_json (pathname : String) (fs : FS) : Option JVal :=
  match lookupFile pathname fs with
  | none => none
  | some content =>
    match parseVal (content.length + 1) content.data with
    | some (v, rest) => if skipWs rest = [] then some v else none
    | none => none

/-- Claim C7: for every JSON value `data`, pathname `p` and prior
file-system state, `save_json data p` followed by `load_json p` returns
exactly `data`: saving then loading is the identity on the JSON data
model. -/
theorem claim_C7_json_roundtrip :
    ∀ (data : JVal) (p : String) (fs : FS),
      load_json p (save_json data p fs) = some data := by
  intro data p fs
  have hfind : lookupFile p (save_json data p fs)
      = some ((renderV data).asString) := by
    simp [lookupFile, save_json, List.find?]
  have hlen : ((renderV data).asString).length = (renderV data).length := rfl
  have hdata : ((renderV data).asString).data = renderV data := rfl
  have hparse : parseVal ((renderV data).length + 1) (renderV data)
      = some (data, []) := by
    have h := (parseVal_renderV ((renderV data).length + 1)).1 data []
      (by have := sizeV_le_len data; omega) trivial
    rwa [List.append_nil] at h
  unfold load_json
  rw [hfind]
  simp only [hlen, hdata, hparse]
  simp [skipWs]

end Pycinante

